import Mathlib

/-!
Shallow embedding of `nlp_architect/utils/embedding.py`.

The four functions under verification are `load_word_embeddings`,
`fill_embedding_mat`, `get_embedding_matrix` and `load_embedding_file`.
Python dictionaries are modelled as association lists with unique keys
(first match wins on lookup, `dinsert` overwrites in place like
`d[k] = v`), numpy float32 vectors as lists of exact rationals, file
handles as the list of text lines they yield, and every Python-level
failure (StopIteration, IndexError, ValueError on a malformed numeric
field, shape errors on assignment) as `none` of an `Option` result.
-/

set_option maxRecDepth 10000

/-- Finite map access modelling Python `dict.get` / `dict[...]`: the first
matching key wins (keys of a Python dict are unique). -/
def dlookup {α β : Type} [DecidableEq α] : List (α × β) → α → Option β
  | [], _ => none
  | (k, v) :: rest, a => if a = k then some v else dlookup rest a

/-- Python `d[k] = v`: replace the value at an existing key in place,
otherwise append the new binding (insertion order is preserved, as in
Python 3.7+ dicts). -/
def dinsert {α β : Type} [DecidableEq α] : List (α × β) → α → β → List (α × β)
  | [], k, v => [(k, v)]
  | (k0, v0) :: rest, k, v =>
    if k0 = k then (k, v) :: rest else (k0, v0) :: dinsert rest k v

/-- Map an `Option`-valued function over a list, failing as soon as one
element fails (models a Python loop that may raise). -/
def omap {α β : Type} (f : α → Option β) : List α → Option (List β)
  | [] => some []
  | x :: xs =>
    match f x with
    | none => none
    | some y =>
      match omap f xs with
      | none => none
      | some ys => some (y :: ys)

/-- Positional access into a list (models non-negative sequence indexing;
`none` is an IndexError). -/
def nth {α : Type} : List α → Nat → Option α
  | [], _ => none
  | x :: _, 0 => some x
  | _ :: xs, n + 1 => nth xs n

/-- Cell `t[i][j]` of a 3-dimensional tensor. -/
def cell3 (t : List (List (List Rat))) (i j : Nat) : Option (List Rat) :=
  (nth t i).bind fun row => nth row j

/-- Accumulator-passing core of `pyFields`: split at whitespace runs,
dropping empty chunks, like Python `str.split()` with no argument. -/
def fieldsAux : List Char → List Char → List String
  | [], acc => if acc = [] then [] else [String.mk acc.reverse]
  | c :: rest, acc =>
    if c.isWhitespace then
      if acc = [] then fieldsAux rest []
      else String.mk acc.reverse :: fieldsAux rest []
    else fieldsAux rest (c :: acc)

/-- Python `line.split()`: whitespace-delimited fields, leading/trailing
whitespace ignored, no empty fields. -/
def pyFields (line : String) : List String := fieldsAux line.data []

/-- Python `str.lower()` (faithful on the ASCII range these files use). -/
def pyLower (s : String) : String := String.mk (s.data.map Char.toLower)

/-- Python `str(x)` applied to the result of `dict.get`: the token itself
when present, the text `"None"` of the `None` sentinel when absent. -/
def pyStr : Option String → String
  | some s => s
  | none => "None"

/-- Numeric value of a digit string (used only after an all-digits check). -/
def digitsVal (cs : List Char) : Nat :=
  cs.foldl (fun n c => 10 * n + (c.toNat - 48)) 0

/-- Split a character list at the first decimal point, if any. -/
def splitAtDot : List Char → List Char × Option (List Char)
  | [] => ([], none)
  | c :: rest =>
    if c = '.' then ([], some rest)
    else
      let p := splitAtDot rest
      (c :: p.1, p.2)

/-- Unsigned part of the decimal-numeral parser behind `parseFloat`: the
value of `ip.fp` is the exact rational `(ip * 10^|fp| + fp) / 10^|fp|`. -/
def parseUnsignedFloat (cs : List Char) : Option Rat :=
  let p := splitAtDot cs
  match p.2 with
  | none =>
    if p.1 ≠ [] ∧ p.1.all Char.isDigit then some (mkRat (digitsVal p.1) 1) else none
  | some fp =>
    if '.' ∈ fp then none
    else if p.1 = [] ∧ fp = [] then none
    else if p.1.all Char.isDigit ∧ fp.all Char.isDigit then
      some (mkRat (digitsVal p.1 * 10 ^ fp.length + digitsVal fp) (10 ^ fp.length))
    else none

/-- Model of the numeric-field conversion done by `float(...)` and
`np.asarray(..., dtype="float32")`: plain signed decimal numerals read as
exact rationals (the float32 rounding of the conversion is not modelled;
a malformed field gives `none`, the ValueError of the source). -/
def parseFloat (s : String) : Option Rat :=
  match s.data with
  | '+' :: rest => parseUnsignedFloat rest
  | '-' :: rest => (parseUnsignedFloat rest).map (fun q => -q)
  | _ => parseUnsignedFloat s.data

/-- The guard `vocab is None or line_fields[0] in vocab` of
`load_word_embeddings`. -/
def vocabAllows (vocab : Option (List String)) (w : String) : Bool :=
  match vocab with
  | none => true
  | some vs => vs.contains w

/-- One iteration of the line loop of `load_word_embeddings` (lines 47-57
of the source): skip lines with fewer than 5 fields, store a line whose
first character is a space under the key `" "` (converting all its
fields), otherwise store token to tail-vector when the filter allows it,
recording the size from the first such line. -/
def processLine (vocab : Option (List String)) (line : String)
    (wv : List (String × List Rat)) (size : Option Nat) :
    Option (List (String × List Rat) × Option Nat) :=
  let lf := pyFields line
  if lf.length < 5 then some (wv, size)
  else if line.data.head? = some ' ' then
    match omap parseFloat lf with
    | none => none
    | some v => some (dinsert wv " " v, size)
  else if vocabAllows vocab (lf.headD "") then
    match omap parseFloat lf.tail with
    | none => none
    | some v =>
      some (dinsert wv (lf.headD "") v,
            match size with
            | none => some lf.tail.length
            | some s => some s)
  else some (wv, size)

/-- Folding `processLine` over the lines of the file. -/
def loadWordEmbeddingsGo (vocab : Option (List String)) :
    List String → List (String × List Rat) → Option Nat →
    Option (List (String × List Rat) × Option Nat)
  | [], wv, size => some (wv, size)
  | line :: rest, wv, size =>
    match processLine vocab line wv size with
    | none => none
    | some st => loadWordEmbeddingsGo vocab rest st.1 st.2

/-- `load_word_embeddings(file_path, vocab)` on the lines of the file:
returns the word-vector table and the detected vector size. -/
def load_word_embeddings (lines : List String) (vocab : Option (List String)) :
    Option (List (String × List Rat) × Option Nat) :=
  loadWordEmbeddingsGo vocab lines [] none

/-- Boolean form of the minimum-field rule `len(line.split()) >= 5`. -/
def minFields (line : String) : Bool := decide (5 ≤ (pyFields line).length)

/-- A line taken by the token branch of `load_word_embeddings`: at least 5
fields, not starting with a space, and allowed by the filter. -/
def acceptedNormalLine (vocab : Option (List String)) (line : String) : Bool :=
  decide (¬ (pyFields line).length < 5) &&
  decide (¬ line.data.head? = some ' ') &&
  vocabAllows vocab ((pyFields line).headD "")

/-- One cell of the loop of `fill_embedding_mat` (lines 75-78): for a
positive id, `emb_lex.get(str(src_lex.get(w)).lower())`, writing the
vector when found (numpy accepts the write when the vector has length
`emb_size`, broadcasts a length-1 vector, and raises otherwise); zeros
for non-positive ids and missed lookups. -/
def cellEmb (src_lex : List (Int × String)) (emb_lex : List (String × List Rat))
    (emb_size : Nat) (w : Int) : Option (List Rat) :=
  if 0 < w then
    match dlookup emb_lex (pyLower (pyStr (dlookup src_lex w))) with
    | some v =>
      if v.length = emb_size then some v
      else if v.length = 1 then some (List.replicate emb_size (v.headD 0))
      else none
    | none => some (List.replicate emb_size 0)
  else some (List.replicate emb_size 0)

/-- Total value of a cell of `fill_embedding_mat` when every vector of the
embedding lexicon has length `emb_size` (proved equal to `cellEmb` below). -/
def cellVal (src_lex : List (Int × String)) (emb_lex : List (String × List Rat))
    (emb_size : Nat) (w : Int) : List Rat :=
  if 0 < w then
    match dlookup emb_lex (pyLower (pyStr (dlookup src_lex w))) with
    | some v => v
    | none => List.replicate emb_size 0
  else List.replicate emb_size 0

/-- `fill_embedding_mat(src_mat, src_lex, emb_lex, emb_size)`: rewrite a
matrix of integer ids into a 3-dimensional tensor of embedding vectors. -/
def fill_embedding_mat (src_mat : List (List Int)) (src_lex : List (Int × String))
    (emb_lex : List (String × List Rat)) (emb_size : Nat) :
    Option (List (List (List Rat))) :=
  omap (fun sen => omap (cellEmb src_lex emb_lex emb_size) sen) src_mat

/-- Modelled from the spec: the class `Vocabulary` of
`nlp_architect.utils.text` is not among the sources; the spec describes it
as exposing "a mapping from token string to integer id and the total count
of distinct tokens", so it is a list of token-id pairs whose length is the
vocabulary size. -/
structure Vocabulary where
  vocab : List (String × Nat)

/-- The vector chosen for one vocabulary token by `get_embedding_matrix`
(lines 100-110): in lowercase-only mode only `word.lower()` is consulted;
otherwise the exact token first, then `word.lower()`. The keys of the
table are used as stored, never lowercased. -/
def chooseVec (emb : List (String × List Rat)) (lowercase_only : Bool)
    (word : String) : Option (List Rat) :=
  if lowercase_only then dlookup emb (pyLower word)
  else
    match dlookup emb word with
    | some v => some v
    | none => dlookup emb (pyLower word)

/-- The numpy row assignment `mat[wid] = vec`: IndexError outside the row
range, ValueError unless the vector has length `e` or broadcasts from
length 1. -/
def writeRow (mat : List (List Rat)) (wid : Nat) (v : List Rat) (e : Nat) :
    Option (List (List Rat)) :=
  if wid < mat.length then
    if v.length = e then some (mat.set wid v)
    else if v.length = 1 then some (mat.set wid (List.replicate e (v.headD 0)))
    else none
  else none

/-- The vocabulary loop of `get_embedding_matrix`: look up each token and
write the found vectors into their rows. -/
def fillRows (emb : List (String × List Rat)) (lco : Bool) (e : Nat) :
    List (String × Nat) → List (List Rat) → Option (List (List Rat))
  | [], mat => some mat
  | p :: rest, mat =>
    match chooseVec emb lco p.1 with
    | none => fillRows emb lco e rest mat
    | some v =>
      match writeRow mat p.2 v e with
      | none => none
      | some mat2 => fillRows emb lco e rest mat2

/-- `len(next(iter(embeddings.values())))` on a nonempty table: the length
of the first stored vector. -/
def embSizeOf (emb : List (String × List Rat)) : Nat :=
  match emb with
  | [] => 0
  | p :: _ => p.2.length

/-- `get_embedding_matrix(embeddings, vocab, embedding_size, lowercase_only)`:
`none` models the StopIteration of `next(iter(...))` on an empty table and
any write failure; `if embedding_size:` makes a `None` or `0` override fall
back to the vocabulary size. -/
def get_embedding_matrix (emb : List (String × List Rat)) (vocab : Vocabulary)
    (embedding_size : Option Nat) (lowercase_only : Bool) :
    Option (List (List Rat)) :=
  match emb with
  | [] => none
  | _ :: _ =>
    let rows :=
      match embedding_size with
      | none => vocab.vocab.length
      | some n => if n = 0 then vocab.vocab.length else n
    fillRows emb lowercase_only (embSizeOf emb) vocab.vocab
      (List.replicate rows (List.replicate (embSizeOf emb) 0))

/-- Line loop of `load_embedding_file`: `split_line[0]` raises IndexError
on a field-less line, every other line is stored as token to converted
tail. No filter, no minimum-field rule, no whitespace special case. -/
def loadEmbeddingFileGo :
    List String → List (String × List Rat) → Option (List (String × List Rat))
  | [], acc => some acc
  | line :: rest, acc =>
    match pyFields line with
    | [] => none
    | word :: vals =>
      match omap parseFloat vals with
      | none => none
      | some vec => loadEmbeddingFileGo rest (dinsert acc word vec)

/-- `load_embedding_file(filename)` on the lines of the file. -/
def load_embedding_file (lines : List String) : Option (List (String × List Rat)) :=
  loadEmbeddingFileGo lines []

/-! ### Association-list, indexing and `omap` lemmas -/

theorem dlookup_dinsert {α β : Type} [DecidableEq α]
    (m : List (α × β)) (k k' : α) (v : β) :
    dlookup (dinsert m k v) k' = if k' = k then some v else dlookup m k' := by
  induction m with
  | nil => simp [dinsert, dlookup]
  | cons p rest ih =>
    obtain ⟨k0, v0⟩ := p
    by_cases h0 : k0 = k
    · subst h0
      simp only [dinsert, if_pos rfl, dlookup]
      by_cases h' : k' = k0 <;> simp [h']
    · simp only [dinsert, if_neg h0, dlookup]
      by_cases h' : k' = k0
      · subst h'
        simp [h0]
      · simp [h', ih]

theorem dlookup_mem {α β : Type} [DecidableEq α] :
    ∀ (m : List (α × β)) (a : α) (v : β), dlookup m a = some v → ∃ k, (k, v) ∈ m := by
  intro m
  induction m with
  | nil => intro a v h; simp [dlookup] at h
  | cons p rest ih =>
    intro a v h
    obtain ⟨k0, v0⟩ := p
    by_cases h0 : a = k0
    · simp only [dlookup, if_pos h0] at h
      injection h with h
      exact ⟨k0, by rw [← h]; exact List.mem_cons_self _ _⟩
    · simp only [dlookup, if_neg h0] at h
      obtain ⟨k, hk⟩ := ih a v h
      exact ⟨k, by simp [hk]⟩

theorem nth_map {α β : Type} (f : α → β) :
    ∀ (l : List α) (i : Nat), nth (l.map f) i = (nth l i).map f
  | [], _ => by simp [nth]
  | _ :: _, 0 => by simp [nth]
  | _ :: xs, i + 1 => by simpa [nth] using nth_map f xs i

theorem nth_replicate {α : Type} (a : α) :
    ∀ (n i : Nat), i < n → nth (List.replicate n a) i = some a
  | n + 1, 0, _ => by simp [List.replicate, nth]
  | n + 1, i + 1, h => by
    simpa [List.replicate, nth] using nth_replicate a n i (Nat.lt_of_succ_lt_succ h)

theorem nth_set_eq {α : Type} :
    ∀ (l : List α) (i : Nat) (a : α), i < l.length → nth (l.set i a) i = some a
  | _ :: _, 0, a, _ => by simp [List.set, nth]
  | x :: xs, i + 1, a, h => by
    simpa [List.set, nth] using nth_set_eq xs i a (Nat.lt_of_succ_lt_succ h)

theorem nth_set_ne {α : Type} :
    ∀ (l : List α) (i j : Nat) (a : α), j ≠ i → nth (l.set i a) j = nth l j
  | [], _, _, _, _ => by simp [List.set]
  | _ :: _, 0, 0, _, h => absurd rfl h
  | _ :: _, 0, _ + 1, _, _ => by simp [List.set, nth]
  | _ :: _, _ + 1, 0, _, _ => by simp [List.set, nth]
  | x :: xs, i + 1, j + 1, a, h => by
    simpa [List.set, nth] using nth_set_ne xs i j a (fun hh => h (by rw [hh]))

theorem mem_of_mem_set {α : Type} :
    ∀ (l : List α) (i : Nat) (a b : α), b ∈ l.set i a → b ∈ l ∨ b = a
  | [], _, _, _, h => by simp [List.set] at h
  | x :: xs, 0, a, b, h => by
    rcases List.mem_cons.mp h with h1 | h1
    · exact Or.inr h1
    · exact Or.inl (List.mem_cons_of_mem x h1)
  | x :: xs, i + 1, a, b, h => by
    rcases List.mem_cons.mp h with h1 | h1
    · exact Or.inl (h1 ▸ List.mem_cons_self x xs)
    · rcases mem_of_mem_set xs i a b h1 with h2 | h2
      · exact Or.inl (List.mem_cons_of_mem x h2)
      · exact Or.inr h2

theorem omap_eq_map {α β : Type} (f : α → Option β) (g : α → β) :
    ∀ (l : List α), (∀ x ∈ l, f x = some (g x)) → omap f l = some (l.map g) := by
  intro l
  induction l with
  | nil => intro _; rfl
  | cons x xs ih =>
    intro h
    have hx := h x (List.mem_cons_self x xs)
    have hxs := ih (fun y hy => h y (List.mem_cons_of_mem x hy))
    simp [omap, hx, hxs]

/-! ### Lemmas about the line loop of `load_word_embeddings` -/

theorem processLine_short (vocab : Option (List String)) (line : String)
    (wv : List (String × List Rat)) (size : Option Nat)
    (h : (pyFields line).length < 5) :
    processLine vocab line wv size = some (wv, size) := by
  simp [processLine, h]

theorem loadGo_filter (vocab : Option (List String)) :
    ∀ (lines : List String) (wv : List (String × List Rat)) (size : Option Nat),
      loadWordEmbeddingsGo vocab lines wv size
        = loadWordEmbeddingsGo vocab (lines.filter minFields) wv size := by
  intro lines
  induction lines with
  | nil => intro wv size; rfl
  | cons line rest ih =>
    intro wv size
    by_cases h5 : (pyFields line).length < 5
    · have hm : minFields line = false := by
        simp only [minFields, decide_eq_false_iff_not]
        omega
      rw [List.filter_cons, hm]
      simp only [Bool.false_eq_true, if_false]
      rw [loadWordEmbeddingsGo, processLine_short vocab line wv size h5]
      exact ih wv size
    · have hm : minFields line = true := by
        simp only [minFields, decide_eq_true_eq]
        omega
      rw [List.filter_cons, hm]
      simp only [if_true]
      rw [loadWordEmbeddingsGo, loadWordEmbeddingsGo]
      cases hp : processLine vocab line wv size with
      | none => rfl
      | some st => exact ih st.1 st.2

/-- C3: every input line with fewer than 5 whitespace-delimited fields is
skipped and contributes nothing to the returned table or dimension
(dropping all such lines leaves the result of `load_word_embeddings`
unchanged), and the line `"a 1.0 2.0 3.0 4.0"` yields the table entry
`"a" ↦ [1, 2, 3, 4]` with detected dimension 4, also in the presence of a
3-field line, which is dropped. -/
theorem load_word_embeddings_short_lines_skipped :
    (∀ (lines : List String) (vocab : Option (List String)),
        load_word_embeddings lines vocab
          = load_word_embeddings (lines.filter minFields) vocab)
    ∧ load_word_embeddings ["a 1.0 2.0 3.0 4.0"] none
        = some ([("a", [1, 2, 3, 4])], some 4)
    ∧ load_word_embeddings ["a 1.0 2.0 3.0 4.0", "b 1.0 2.0"] none
        = some ([("a", [1, 2, 3, 4])], some 4) :=
  ⟨fun lines vocab => loadGo_filter vocab lines [] none, by decide, by decide⟩

/-- C6: `get_embedding_matrix` on an empty embedding table fails (the
`next(iter(embeddings.values()))` of line 95 raises StopIteration) for
every vocabulary, row-count override and mode, instead of returning a
matrix. -/
theorem get_embedding_matrix_empty_table_fails :
    ∀ (vocab : Vocabulary) (esz : Option Nat) (lco : Bool),
      get_embedding_matrix [] vocab esz lco = none :=
  fun _ _ _ => rfl

/-- C1 counterexample: with vocabulary `{"cat": 1, "dog": 2}` and table
`{"cat": [1,1], "DOG": [2,2]}`, `get_embedding_matrix` with
`lowercase_only=False` returns the 2-by-2 matrix `[[0,0],[1,1]]`: no row
equals `[2,2]` and there is no row of index 2, because the fallback
lowercases the vocabulary token only (`"dog".lower() = "dog"`), which does
not match the table key `"DOG"`, contradicting the claimed row 2 =
`[2,2]`. -/
theorem get_embedding_matrix_no_upper_key_match :
    get_embedding_matrix [("cat", [1, 1]), ("DOG", [2, 2])]
        ⟨[("cat", 1), ("dog", 2)]⟩ none false = some [[0, 0], [1, 1]]
    ∧ ([2, 2] : List Rat) ∉ [[(0 : Rat), 0], [1, 1]]
    ∧ nth [[(0 : Rat), 0], [1, 1]] 2 = none := by
  refine ⟨by decide, by decide, by decide⟩

/-- C2 counterexample: with vocabulary `{"cat": 1, "dog": 2}` and table
`{"cat": [1,1], "DOG": [2,2]}`, `get_embedding_matrix` with
`lowercase_only=True` returns `[[0,0],[1,1]]`, a matrix with rows 0 and 1
only: the claimed "row 2" does not exist (`nth` at 2 is `none`), so it is
not an all-zero row. -/
theorem get_embedding_matrix_lowercase_only_row_out_of_range :
    get_embedding_matrix [("cat", [1, 1]), ("DOG", [2, 2])]
        ⟨[("cat", 1), ("dog", 2)]⟩ none true = some [[0, 0], [1, 1]]
    ∧ nth [[(0 : Rat), 0], [1, 1]] 2 = none := by
  refine ⟨by decide, by decide⟩

/-- C5 counterexample: on a file whose only line is the space-prefixed
line `" 1 2 3 4 5"`, `load_word_embeddings` retains the line in the table
(under the key `" "`, with its 5 numeric fields) yet returns dimension
`none`: the dimension is not recorded from this first retained line,
refuting "recorded from the first accepted line (... the first line that
is retained in the table)". -/
theorem load_word_embeddings_space_line_sets_no_size :
    load_word_embeddings [" 1 2 3 4 5"] none
        = some ([(" ", [1, 2, 3, 4, 5])], none)
    ∧ (pyFields " 1 2 3 4 5").length = 5 := by
  refine ⟨by decide, by decide⟩

/-- C8 counterexample: `if embedding_size:` treats the explicit override 0
as absent, so with table `{"cat": [1,1]}`, vocabulary `{"cat": 0}` and the
explicit row-count override 0, the returned matrix has 1 row (the
vocabulary size), not the 0 rows the claim requires. -/
theorem get_embedding_matrix_zero_override_ignored :
    get_embedding_matrix [("cat", [1, 1])] ⟨[("cat", 0)]⟩ (some 0) false
        = some [[1, 1]]
    ∧ Option.map List.length
        (get_embedding_matrix [("cat", [(1 : Rat), 1])] ⟨[("cat", 0)]⟩ (some 0) false)
        = some 1
    ∧ (1 : Nat) ≠ 0 := by
  refine ⟨by decide, by decide, by decide⟩

/-! ### Lemmas about the vocabulary loop of `get_embedding_matrix` -/

theorem writeRow_length {mat m2 : List (List Rat)} {wid : Nat} {v : List Rat} {e : Nat}
    (h : writeRow mat wid v e = some m2) : m2.length = mat.length := by
  unfold writeRow at h
  split at h
  · split at h
    · injection h with h; rw [← h]; simp
    · split at h
      · injection h with h; rw [← h]; simp
      · cases h
  · cases h

theorem writeRow_nth_ne {mat m2 : List (List Rat)} {wid : Nat} {v : List Rat} {e : Nat}
    (h : writeRow mat wid v e = some m2) (j : Nat) (hj : j ≠ wid) :
    nth m2 j = nth mat j := by
  unfold writeRow at h
  split at h
  · split at h
    · injection h with h; rw [← h]; exact nth_set_ne mat wid j v hj
    · split at h
      · injection h with h; rw [← h]; exact nth_set_ne mat wid j _ hj
      · cases h
  · cases h

theorem writeRow_nth_eq {mat m2 : List (List Rat)} {wid : Nat} {v : List Rat} {e : Nat}
    (h : writeRow mat wid v e = some m2) (hv : v.length = e) :
    nth m2 wid = some v := by
  by_cases hlt : wid < mat.length
  · rw [show writeRow mat wid v e = some (mat.set wid v) from by
      simp [writeRow, hlt, hv]] at h
    injection h with h
    rw [← h]
    exact nth_set_eq mat wid v hlt
  · rw [show writeRow mat wid v e = none from by simp [writeRow, hlt]] at h
    cases h

theorem writeRow_rows {mat m2 : List (List Rat)} {wid : Nat} {v : List Rat} {e : Nat}
    (h : writeRow mat wid v e = some m2) (hrows : ∀ row ∈ mat, row.length = e) :
    ∀ row ∈ m2, row.length = e := by
  unfold writeRow at h
  split at h
  · split at h
    case isTrue hv =>
      injection h with h
      intro row hrow
      rw [← h] at hrow
      rcases mem_of_mem_set mat wid v row hrow with h1 | h1
      · exact hrows row h1
      · rw [h1]; exact hv
    · split at h
      · injection h with h
        intro row hrow
        rw [← h] at hrow
        rcases mem_of_mem_set mat wid _ row hrow with h1 | h1
        · exact hrows row h1
        · rw [h1]; simp
      · cases h
  · cases h

theorem chooseVec_len {emb : List (String × List Rat)} {lco : Bool} {word : String}
    {v : List Rat} {e : Nat}
    (hlen : ∀ p ∈ emb, (Prod.snd p).length = e)
    (h : chooseVec emb lco word = some v) : v.length = e := by
  have hv : ∃ k, (k, v) ∈ emb := by
    unfold chooseVec at h
    split at h
    · exact dlookup_mem emb (pyLower word) v h
    · split at h
      · rename_i v0 hd
        injection h with h
        rw [← h]
        exact dlookup_mem emb word v0 hd
      · exact dlookup_mem emb (pyLower word) v h
  obtain ⟨k, hk⟩ := hv
  exact hlen (k, v) hk

theorem fillRows_length {emb : List (String × List Rat)} {lco : Bool} {e : Nat} :
    ∀ (pairs : List (String × Nat)) (mat m : List (List Rat)),
      fillRows emb lco e pairs mat = some m → m.length = mat.length := by
  intro pairs
  induction pairs with
  | nil => intro mat m h; injection h with h; rw [← h]
  | cons p rest ih =>
    intro mat m h
    rw [fillRows] at h
    split at h
    · exact ih mat m h
    · split at h
      · cases h
      · rename_i mat2 hw
        rw [ih mat2 m h]
        exact writeRow_length hw

theorem fillRows_rows {emb : List (String × List Rat)} {lco : Bool} {e : Nat} :
    ∀ (pairs : List (String × Nat)) (mat m : List (List Rat)),
      (∀ row ∈ mat, row.length = e) →
      fillRows emb lco e pairs mat = some m → ∀ row ∈ m, row.length = e := by
  intro pairs
  induction pairs with
  | nil => intro mat m hrows h; injection h with h; rw [← h]; exact hrows
  | cons p rest ih =>
    intro mat m hrows h
    rw [fillRows] at h
    split at h
    · exact ih mat m hrows h
    · split at h
      · cases h
      · rename_i mat2 hw
        exact ih mat2 m (writeRow_rows hw hrows) h

theorem fillRows_untouched {emb : List (String × List Rat)} {lco : Bool} {e : Nat} :
    ∀ (pairs : List (String × Nat)) (mat m : List (List Rat)) (wid : Nat),
      fillRows emb lco e pairs mat = some m →
      (∀ p ∈ pairs, Prod.snd p ≠ wid) →
      nth m wid = nth mat wid := by
  intro pairs
  induction pairs with
  | nil => intro mat m wid h _; injection h with h; rw [← h]
  | cons p rest ih =>
    intro mat m wid h hne
    rw [fillRows] at h
    split at h
    · exact ih mat m wid h (fun q hq => hne q (List.mem_cons_of_mem p hq))
    · split at h
      · cases h
      · rename_i mat2 hw
        rw [ih mat2 m wid h (fun q hq => hne q (List.mem_cons_of_mem p hq))]
        exact writeRow_nth_ne hw wid
          (fun hh => hne p (List.mem_cons_self p rest) hh.symm)

theorem fillRows_get {emb : List (String × List Rat)} {lco : Bool} {e : Nat}
    (hlen : ∀ p ∈ emb, (Prod.snd p).length = e) :
    ∀ (pairs : List (String × Nat)) (mat m : List (List Rat)) (word : String) (wid : Nat),
      (pairs.map Prod.snd).Nodup → (word, wid) ∈ pairs →
      fillRows emb lco e pairs mat = some m →
      nth m wid = match chooseVec emb lco word with
                  | none => nth mat wid
                  | some v => some v := by
  intro pairs
  induction pairs with
  | nil => intro mat m word wid _ hmem; cases hmem
  | cons p rest ih =>
    intro mat m word wid hnd hmem h
    obtain ⟨pw, pid⟩ := p
    have hnd1 : (pid :: rest.map Prod.snd).Nodup := by
      simpa only [List.map_cons] using hnd
    have hnd2 := List.nodup_cons.mp hnd1
    rw [fillRows] at h
    dsimp only at h
    rcases List.mem_cons.mp hmem with heq | hmem'
    · have h1 : word = pw := congrArg Prod.fst heq
      have h2 : wid = pid := congrArg Prod.snd heq
      subst h1
      subst h2
      split at h
      · exact fillRows_untouched rest mat m wid h
          (fun q hq hh => hnd2.1 (List.mem_map.mpr ⟨q, hq, hh⟩))
      · rename_i v hc
        split at h
        · cases h
        · rename_i mat2 hw
          rw [fillRows_untouched rest mat2 m wid h
            (fun q hq hh => hnd2.1 (List.mem_map.mpr ⟨q, hq, hh⟩))]
          exact writeRow_nth_eq hw (chooseVec_len hlen hc)
    · have hpwid : pid ≠ wid :=
        fun hh => hnd2.1 (List.mem_map.mpr ⟨(word, wid), hmem', hh.symm⟩)
      split at h
      · exact ih mat m word wid hnd2.2 hmem' h
      · split at h
        · cases h
        · rename_i mat2 hw
          rw [ih mat2 m word wid hnd2.2 hmem' h]
          cases hcw : chooseVec emb lco word with
          | none =>
            simp only [hcw]
            exact writeRow_nth_ne hw wid (fun hh => hpwid hh.symm)
          | some v2 => simp only [hcw]

/-- C1 (amended): with `lowercase_only=False`, for every (token, id) pair
of the vocabulary the exact token is looked up in the embedding table
first and then the lowercased token — the table keys are used as stored,
never lowercased — so each in-range row holds the vector of the first
lookup that hits, and stays zero when both miss. In particular, with
vocabulary `{"cat": 1, "dog": 2}` and table `{"cat": [1,1],
"DOG": [2,2]}` the resulting 2-by-2 matrix is `[[0,0],[1,1]]` (row 1 =
[1,1]): no row receives `[2,2]`, because `"dog".lower() = "dog"` does not
match the table key `"DOG"` and no row of index 2 exists. -/
theorem get_embedding_matrix_exact_then_lowercase :
    (∀ (emb : List (String × List Rat)) (vocab : Vocabulary) (esz : Option Nat)
        (m : List (List Rat)) (word : String) (wid : Nat),
        get_embedding_matrix emb vocab esz false = some m →
        (vocab.vocab.map Prod.snd).Nodup →
        (word, wid) ∈ vocab.vocab →
        (∀ p ∈ emb, (Prod.snd p).length = embSizeOf emb) →
        wid < m.length →
        nth m wid = some (match dlookup emb word with
          | some v => v
          | none =>
            match dlookup emb (pyLower word) with
            | some v => v
            | none => List.replicate (embSizeOf emb) 0))
    ∧ get_embedding_matrix [("cat", [1, 1]), ("DOG", [2, 2])]
        ⟨[("cat", 1), ("dog", 2)]⟩ none false = some [[0, 0], [1, 1]]
    ∧ ([2, 2] : List Rat) ∉ [[(0 : Rat), 0], [1, 1]] := by
  refine ⟨?_, by decide, by decide⟩
  intro emb vocab esz m word wid hm hnd hmem hlen hwid
  cases emb with
  | nil => cases hm
  | cons p emb0 =>
    rw [get_embedding_matrix.eq_def] at hm
    dsimp only at hm
    have hlm := fillRows_length vocab.vocab _ m hm
    rw [fillRows_get hlen vocab.vocab _ m word wid hnd hmem hm]
    cases hd : dlookup (p :: emb0) word with
    | some v =>
      have hcv : chooseVec (p :: emb0) false word = some v := by
        simp [chooseVec, hd]
      simp only [hcv, hd]
    | none =>
      cases hd2 : dlookup (p :: emb0) (pyLower word) with
      | some v =>
        have hcv : chooseVec (p :: emb0) false word = some v := by
          simp [chooseVec, hd, hd2]
        simp only [hcv, hd, hd2]
      | none =>
        have hcv : chooseVec (p :: emb0) false word = none := by
          simp [chooseVec, hd, hd2]
        simp only [hcv, hd, hd2]
        refine nth_replicate _ _ _ ?_
        have h2 := hwid
        rw [hlm] at h2
        simpa using h2

/-- Witness for C1: instantiating the amended theorem at the concrete
example, row 1 of the resulting matrix holds the vector found by the
exact-first lookup of `"cat"`. -/
theorem get_embedding_matrix_exact_then_lowercase_witness :
    nth [[(0 : Rat), 0], [1, 1]] 1 = some [1, 1] := by
  have h := get_embedding_matrix_exact_then_lowercase.1
    [("cat", [1, 1]), ("DOG", [2, 2])] ⟨[("cat", 1), ("dog", 2)]⟩ none
    [[0, 0], [1, 1]] "cat" 1 (by decide) (by decide) (by decide) (by decide)
    (by decide)
  exact h

/-- C2 (amended): with `lowercase_only=True`, for every (token, id) pair
of the vocabulary only the lowercased token is looked up, against the
table keys as stored (case-sensitive). With vocabulary `{"cat": 1,
"dog": 2}` and table `{"cat": [1,1], "DOG": [2,2]}` the result is the
2-row matrix `[[0,0],[1,1]]`: row 1 = [1,1] from `"cat"`, nothing is
written for `"dog"` (`"dog".lower() = "dog"` does not match `"DOG"`), so
every row other than row 1 stays zero — and the matrix has no row of
index 2 at all. -/
theorem get_embedding_matrix_lowercase_only_lookup :
    (∀ (emb : List (String × List Rat)) (vocab : Vocabulary) (esz : Option Nat)
        (m : List (List Rat)) (word : String) (wid : Nat),
        get_embedding_matrix emb vocab esz true = some m →
        (vocab.vocab.map Prod.snd).Nodup →
        (word, wid) ∈ vocab.vocab →
        (∀ p ∈ emb, (Prod.snd p).length = embSizeOf emb) →
        wid < m.length →
        nth m wid = some (match dlookup emb (pyLower word) with
          | some v => v
          | none => List.replicate (embSizeOf emb) 0))
    ∧ get_embedding_matrix [("cat", [1, 1]), ("DOG", [2, 2])]
        ⟨[("cat", 1), ("dog", 2)]⟩ none true = some [[0, 0], [1, 1]]
    ∧ nth [[(0 : Rat), 0], [1, 1]] 0 = some [0, 0]
    ∧ ([2, 2] : List Rat) ∉ [[(0 : Rat), 0], [1, 1]] := by
  refine ⟨?_, by decide, by decide, by decide⟩
  intro emb vocab esz m word wid hm hnd hmem hlen hwid
  cases emb with
  | nil => cases hm
  | cons p emb0 =>
    rw [get_embedding_matrix.eq_def] at hm
    dsimp only at hm
    have hlm := fillRows_length vocab.vocab _ m hm
    rw [fillRows_get hlen vocab.vocab _ m word wid hnd hmem hm]
    cases hd : dlookup (p :: emb0) (pyLower word) with
    | some v =>
      have hcv : chooseVec (p :: emb0) true word = some v := by
        simp [chooseVec, hd]
      simp only [hcv, hd]
    | none =>
      have hcv : chooseVec (p :: emb0) true word = none := by
        simp [chooseVec, hd]
      simp only [hcv, hd]
      refine nth_replicate _ _ _ ?_
      have h2 := hwid
      rw [hlm] at h2
      simpa using h2

/-- Witness for C2: instantiating the amended theorem at the concrete
example, row 1 holds the vector of the lowercase-only lookup of
`"cat"`. -/
theorem get_embedding_matrix_lowercase_only_lookup_witness :
    nth [[(0 : Rat), 0], [1, 1]] 1 = some [1, 1] := by
  have h := get_embedding_matrix_lowercase_only_lookup.1
    [("cat", [1, 1]), ("DOG", [2, 2])] ⟨[("cat", 1), ("dog", 2)]⟩ none
    [[0, 0], [1, 1]] "cat" 1 (by decide) (by decide) (by decide) (by decide)
    (by decide)
  exact h

/-- C8 (amended): whenever `get_embedding_matrix` returns a matrix, its
row count equals the explicit row-count override when a nonzero override
is given, and the vocabulary size otherwise (a zero override is treated
like an absent one by `if embedding_size:`), and every row has the
inferred embedding dimension (the length of the first stored vector) as
its length. -/
theorem get_embedding_matrix_shape :
    ∀ (emb : List (String × List Rat)) (vocab : Vocabulary) (esz : Option Nat)
      (lco : Bool) (m : List (List Rat)),
      get_embedding_matrix emb vocab esz lco = some m →
      m.length = (match esz with
                  | none => vocab.vocab.length
                  | some n => if n = 0 then vocab.vocab.length else n)
      ∧ ∀ row ∈ m, row.length = embSizeOf emb := by
  intro emb vocab esz lco m hm
  cases emb with
  | nil => cases hm
  | cons p emb0 =>
    rw [get_embedding_matrix.eq_def] at hm
    dsimp only at hm
    constructor
    · have hlm := fillRows_length vocab.vocab _ m hm
      rw [hlm]
      simp
    · intro row hrow
      refine fillRows_rows vocab.vocab _ m ?_ hm row hrow
      intro r hr
      rw [List.eq_of_mem_replicate hr]
      simp

/-- Witness for C8: instantiating the amended theorem at table
`{"cat": [1,1]}` and vocabulary `{"cat": 0, "dog": 1}` with no override:
the returned matrix `[[1,1],[0,0]]` has 2 rows (the vocabulary size) and
its rows have the inferred dimension 2. -/
theorem get_embedding_matrix_shape_witness :
    ([[(1 : Rat), 1], [0, 0]] : List (List Rat)).length = 2
    ∧ ([(1 : Rat), 1] : List Rat).length = embSizeOf [("cat", [(1 : Rat), 1])] := by
  have h := get_embedding_matrix_shape [("cat", [1, 1])]
    ⟨[("cat", 0), ("dog", 1)]⟩ none false [[1, 1], [0, 0]] (by decide)
  exact ⟨h.1, h.2 [1, 1] (by decide)⟩

/-! ### Size and key tracking through the line loop -/

theorem processLine_size_some (vocab : Option (List String)) (line : String)
    (wv : List (String × List Rat)) (s : Nat)
    (st : List (String × List Rat) × Option Nat)
    (h : processLine vocab line wv (some s) = some st) : st.2 = some s := by
  unfold processLine at h
  dsimp only at h
  split at h
  · injection h with h; rw [← h]
  · split at h
    · split at h
      · cases h
      · injection h with h; rw [← h]
    · split at h
      · split at h
        · cases h
        · injection h with h; rw [← h]
      · injection h with h; rw [← h]

theorem processLine_size_none (vocab : Option (List String)) (line : String)
    (wv : List (String × List Rat))
    (st : List (String × List Rat) × Option Nat)
    (h : processLine vocab line wv none = some st) :
    (acceptedNormalLine vocab line = true → st.2 = some (pyFields line).tail.length)
    ∧ (acceptedNormalLine vocab line = false → st.2 = none) := by
  unfold processLine at h
  dsimp only at h
  split at h
  case isTrue h5 =>
    injection h with h
    have ha : acceptedNormalLine vocab line = false := by
      simp [acceptedNormalLine, h5]
    refine ⟨fun h' => absurd h' (by rw [ha]; simp), fun _ => by rw [← h]⟩
  case isFalse h5 =>
    split at h
    case isTrue hsp =>
      split at h
      · cases h
      · injection h with h
        have ha : acceptedNormalLine vocab line = false := by
          simp [acceptedNormalLine, hsp]
        refine ⟨fun h' => absurd h' (by rw [ha]; simp), fun _ => by rw [← h]⟩
    case isFalse hsp =>
      split at h
      case isTrue hv =>
        split at h
        · cases h
        · injection h with h
          have ha : acceptedNormalLine vocab line = true := by
            simp [acceptedNormalLine, h5, hsp]
            simpa using hv
          refine ⟨fun _ => by rw [← h], fun h' => absurd h' (by rw [ha]; simp)⟩
      case isFalse hv =>
        injection h with h
        have hv2 : vocabAllows vocab ((pyFields line).headD "") = false := by
          simpa using hv
        have ha : acceptedNormalLine vocab line = false := by
          simp [acceptedNormalLine]
          intro _ _
          simpa using hv2
        refine ⟨fun h' => absurd h' (by rw [ha]; simp), fun _ => by rw [← h]⟩

theorem loadGo_size_some (vocab : Option (List String)) :
    ∀ (lines : List String) (wv : List (String × List Rat)) (s : Nat)
      (tbl : List (String × List Rat)) (sz : Option Nat),
      loadWordEmbeddingsGo vocab lines wv (some s) = some (tbl, sz) →
      sz = some s := by
  intro lines
  induction lines with
  | nil =>
    intro wv s tbl sz h
    injection h with h
    exact (congrArg Prod.snd h).symm
  | cons line rest ih =>
    intro wv s tbl sz h
    rw [loadWordEmbeddingsGo] at h
    split at h
    · cases h
    · rename_i st hst
      rw [processLine_size_some vocab line wv s st hst] at h
      exact ih st.1 s tbl sz h

theorem loadGo_size_none (vocab : Option (List String)) :
    ∀ (lines : List String) (wv : List (String × List Rat))
      (tbl : List (String × List Rat)) (sz : Option Nat),
      loadWordEmbeddingsGo vocab lines wv none = some (tbl, sz) →
      sz = ((lines.find? (acceptedNormalLine vocab)).map
        fun l => (pyFields l).tail.length) := by
  intro lines
  induction lines with
  | nil =>
    intro wv tbl sz h
    injection h with h
    exact (congrArg Prod.snd h).symm
  | cons line rest ih =>
    intro wv tbl sz h
    rw [loadWordEmbeddingsGo] at h
    split at h
    · cases h
    · rename_i st hst
      have hps := processLine_size_none vocab line wv st hst
      cases ha : acceptedNormalLine vocab line with
      | true =>
        rw [hps.1 ha] at h
        rw [loadGo_size_some vocab rest st.1 _ tbl sz h]
        simp [List.find?, ha]
      | false =>
        rw [hps.2 ha] at h
        rw [ih st.1 tbl sz h]
        simp [List.find?, ha]

theorem processLine_keys (vocab : Option (List String)) (line : String)
    (wv : List (String × List Rat)) (size : Option Nat)
    (st : List (String × List Rat) × Option Nat) (k : String)
    (h : processLine vocab line wv size = some st)
    (hk : (dlookup wv k).isSome = true) : (dlookup st.1 k).isSome = true := by
  unfold processLine at h
  dsimp only at h
  split at h
  · injection h with h; rw [← h]; exact hk
  · split at h
    · split at h
      · cases h
      · rename_i v heq
        injection h with h
        rw [← h]
        dsimp only
        rw [dlookup_dinsert]
        by_cases hks : k = " "
        · rw [if_pos hks]; rfl
        · rw [if_neg hks]; exact hk
    · split at h
      · split at h
        · cases h
        · rename_i v heq
          injection h with h
          rw [← h]
          dsimp only
          rw [dlookup_dinsert]
          by_cases hks : k = (pyFields line).headD ""
          · rw [if_pos hks]; rfl
          · rw [if_neg hks]; exact hk
      · injection h with h; rw [← h]; exact hk

theorem loadGo_keys (vocab : Option (List String)) :
    ∀ (lines : List String) (wv tbl : List (String × List Rat))
      (size sz : Option Nat) (k : String),
      loadWordEmbeddingsGo vocab lines wv size = some (tbl, sz) →
      (dlookup wv k).isSome = true → (dlookup tbl k).isSome = true := by
  intro lines
  induction lines with
  | nil =>
    intro wv tbl size sz k h hk
    injection h with h
    injection h with h1 h2
    rw [← h1]
    exact hk
  | cons line rest ih =>
    intro wv tbl size sz k h hk
    rw [loadWordEmbeddingsGo] at h
    split at h
    · cases h
    · rename_i st hst
      exact ih st.1 tbl st.2 sz k h (processLine_keys vocab line wv size st k hst hk)

theorem loadGo_space (vocab : Option (List String)) :
    ∀ (lines : List String) (wv : List (String × List Rat)) (size : Option Nat)
      (tbl : List (String × List Rat)) (sz : Option Nat),
      loadWordEmbeddingsGo vocab lines wv size = some (tbl, sz) →
      ∀ line ∈ lines, line.data.head? = some ' ' → ¬ (pyFields line).length < 5 →
      (dlookup tbl " ").isSome = true := by
  intro lines
  induction lines with
  | nil => intro wv size tbl sz _ line hline; cases hline
  | cons line0 rest ih =>
    intro wv size tbl sz h line hline hsp h5
    rw [loadWordEmbeddingsGo] at h
    split at h
    · cases h
    · rename_i st hst
      rcases List.mem_cons.mp hline with heq | hmem
      · subst heq
        have hkey : (dlookup st.1 " ").isSome = true := by
          unfold processLine at hst
          dsimp only at hst
          split at hst
          case isTrue h' => exact absurd h' h5
          case isFalse =>
            split at hst
            · cases hst
            · rename_i v heq2
              injection hst with hst
              rw [← hst]
              dsimp only
              rw [dlookup_dinsert]
              simp
        exact loadGo_keys vocab rest st.1 tbl st.2 sz " " h hkey
      · exact ih st.1 st.2 tbl sz h line hmem hsp h5

/-- C4: whenever `load_word_embeddings` returns a table and some input
line has at least 5 fields and begins with a literal space character, the
returned table has an entry for the whitespace token `" "`, for every
vocabulary filter (including filters excluding every token). -/
theorem load_word_embeddings_space_line_kept
    (lines : List String) (vocab : Option (List String))
    (tbl : List (String × List Rat)) (sz : Option Nat)
    (h : load_word_embeddings lines vocab = some (tbl, sz))
    (line : String) (hmem : line ∈ lines)
    (hsp : line.data.head? = some ' ')
    (hlen : 5 ≤ (pyFields line).length) :
    (dlookup tbl " ").isSome = true :=
  loadGo_space vocab lines [] none tbl sz h line hmem hsp (by omega)

/-- Witness for C4: the space-prefixed line `" 1 2 3 4 5"` is stored under
the key `" "` even when the supplied filter allows only the token
`"zzz"`. -/
theorem load_word_embeddings_space_line_kept_witness :
    (dlookup [(" ", ([1, 2, 3, 4, 5] : List Rat))] " ").isSome = true :=
  load_word_embeddings_space_line_kept [" 1 2 3 4 5"] (some ["zzz"])
    [(" ", [1, 2, 3, 4, 5])] none (by decide) " 1 2 3 4 5" (by decide)
    (by decide) (by decide)

/-- C5 (amended): the detected dimension of `load_word_embeddings` is the
number of fields after the token on the first line accepted through the
token branch — the first line with at least 5 fields that does not begin
with a space and passes the filter — and `none` when no such line exists
(a retained space-prefixed line never sets it); it is never re-validated
against later lines, and files with mixed vector dimensions are accepted
(the concrete file mixes dimensions 4 and 6 and still loads, keeping
dimension 4 from its first accepted line). -/
theorem load_word_embeddings_size_from_first_normal_line :
    (∀ (lines : List String) (vocab : Option (List String))
        (tbl : List (String × List Rat)) (sz : Option Nat),
        load_word_embeddings lines vocab = some (tbl, sz) →
        sz = ((lines.find? (acceptedNormalLine vocab)).map
          fun l => (pyFields l).tail.length))
    ∧ load_word_embeddings ["a 1 2 3 4", "b 1 2 3 4 5 6"] none
        = some ([("a", [1, 2, 3, 4]), ("b", [1, 2, 3, 4, 5, 6])], some 4) :=
  ⟨fun lines vocab tbl sz h => loadGo_size_none vocab lines [] tbl sz h,
   by decide⟩

/-- Witness for C5: instantiating the amended theorem on the mixed-size
file, the detected dimension 4 is the field count after the token of the
first line accepted through the token branch. -/
theorem load_word_embeddings_size_from_first_normal_line_witness :
    (some 4 : Option Nat)
      = ((["a 1 2 3 4", "b 1 2 3 4 5 6"].find? (acceptedNormalLine none)).map
          fun l => (pyFields l).tail.length) :=
  load_word_embeddings_size_from_first_normal_line.1
    ["a 1 2 3 4", "b 1 2 3 4 5 6"] none
    [("a", [1, 2, 3, 4]), ("b", [1, 2, 3, 4, 5, 6])] (some 4) (by decide)

/-! ### Lemmas about `fill_embedding_mat` -/

theorem cellEmb_eq (src_lex : List (Int × String)) (emb_lex : List (String × List Rat))
    (emb_size : Nat) (hlen : ∀ p ∈ emb_lex, (Prod.snd p).length = emb_size) (w : Int) :
    cellEmb src_lex emb_lex emb_size w
      = some (cellVal src_lex emb_lex emb_size w) := by
  unfold cellEmb cellVal
  by_cases hw : 0 < w
  · rw [if_pos hw, if_pos hw]
    cases hd : dlookup emb_lex (pyLower (pyStr (dlookup src_lex w))) with
    | none => simp only [hd]
    | some v =>
      have hv : v.length = emb_size := by
        obtain ⟨k, hk⟩ := dlookup_mem emb_lex _ v hd
        exact hlen (k, v) hk
      simp only [hd, if_pos hv]
  · rw [if_neg hw, if_neg hw]

theorem cellVal_len (src_lex : List (Int × String)) (emb_lex : List (String × List Rat))
    (emb_size : Nat) (hlen : ∀ p ∈ emb_lex, (Prod.snd p).length = emb_size) (w : Int) :
    (cellVal src_lex emb_lex emb_size w).length = emb_size := by
  unfold cellVal
  by_cases hw : 0 < w
  · rw [if_pos hw]
    cases hd : dlookup emb_lex (pyLower (pyStr (dlookup src_lex w))) with
    | none => simp only [hd]; simp
    | some v =>
      simp only [hd]
      obtain ⟨k, hk⟩ := dlookup_mem emb_lex _ v hd
      exact hlen (k, v) hk
  · rw [if_neg hw]; simp

theorem fill_eq (src_mat : List (List Int)) (src_lex : List (Int × String))
    (emb_lex : List (String × List Rat)) (emb_size : Nat)
    (hlen : ∀ p ∈ emb_lex, (Prod.snd p).length = emb_size) :
    fill_embedding_mat src_mat src_lex emb_lex emb_size
      = some (src_mat.map fun sen => sen.map (cellVal src_lex emb_lex emb_size)) := by
  unfold fill_embedding_mat
  apply omap_eq_map
  intro sen _
  apply omap_eq_map
  intro w _
  exact cellEmb_eq src_lex emb_lex emb_size hlen w

theorem fill_cell (src_mat : List (List Int)) (src_lex : List (Int × String))
    (emb_lex : List (String × List Rat)) (emb_size : Nat)
    (hlen : ∀ p ∈ emb_lex, (Prod.snd p).length = emb_size)
    (i j : Nat) (sen : List Int) (w : Int)
    (hi : nth src_mat i = some sen) (hj : nth sen j = some w) :
    ((fill_embedding_mat src_mat src_lex emb_lex emb_size).bind fun t => cell3 t i j)
      = some (cellVal src_lex emb_lex emb_size w) := by
  rw [fill_eq src_mat src_lex emb_lex emb_size hlen]
  show cell3 (src_mat.map fun s => s.map (cellVal src_lex emb_lex emb_size)) i j = _
  unfold cell3
  rw [nth_map, hi]
  show nth (sen.map (cellVal src_lex emb_lex emb_size)) j = _
  rw [nth_map, hj]
  rfl

/-- C7: under the table invariant that every vector of the embedding
lexicon has length `emb_size`, `fill_embedding_mat` returns a tensor with
one row per sentence, one cell per position, every cell of length
`emb_size`; a cell whose source id is ≤ 0 is all zeros, and a cell whose
positive id resolves through the source lexicon to a token holds the
vector of that token when the lowercased token is a key of the embedding
lexicon, and zeros when it is not. -/
theorem fill_embedding_mat_cells
    (src_mat : List (List Int)) (src_lex : List (Int × String))
    (emb_lex : List (String × List Rat)) (emb_size : Nat)
    (hlen : ∀ p ∈ emb_lex, (Prod.snd p).length = emb_size)
    (i j : Nat) (sen : List Int) (w : Int)
    (hi : nth src_mat i = some sen) (hj : nth sen j = some w) :
    (fill_embedding_mat src_mat src_lex emb_lex emb_size).map List.length
        = some src_mat.length
    ∧ ((fill_embedding_mat src_mat src_lex emb_lex emb_size).bind
          fun t => nth t i).map List.length = some sen.length
    ∧ ((fill_embedding_mat src_mat src_lex emb_lex emb_size).bind
          fun t => cell3 t i j).map List.length = some emb_size
    ∧ (w ≤ 0 →
        ((fill_embedding_mat src_mat src_lex emb_lex emb_size).bind
          fun t => cell3 t i j) = some (List.replicate emb_size 0))
    ∧ (∀ tok, 0 < w → dlookup src_lex w = some tok →
        ((fill_embedding_mat src_mat src_lex emb_lex emb_size).bind
          fun t => cell3 t i j)
          = some (match dlookup emb_lex (pyLower tok) with
                  | some v => v
                  | none => List.replicate emb_size 0)) := by
  have hfc := fill_cell src_mat src_lex emb_lex emb_size hlen i j sen w hi hj
  refine ⟨?_, ?_, ?_, ?_, ?_⟩
  · rw [fill_eq src_mat src_lex emb_lex emb_size hlen]
    simp
  · rw [fill_eq src_mat src_lex emb_lex emb_size hlen]
    show (nth (src_mat.map fun s => s.map (cellVal src_lex emb_lex emb_size)) i).map
        List.length = some sen.length
    rw [nth_map, hi]
    simp
  · rw [hfc]
    have := cellVal_len src_lex emb_lex emb_size hlen w
    simp [this]
  · intro hw0
    rw [hfc]
    unfold cellVal
    rw [if_neg (by omega : ¬ 0 < w)]
  · intro tok hw htok
    rw [hfc]
    unfold cellVal
    rw [if_pos hw, htok]
    rfl

/-- Witness for C7: on the id matrix `[[0, 1]]` with source lexicon
`{1: "Cat"}` and embedding lexicon `{"cat": [3,4]}`, the cell of the
positive id 1 holds the vector found for the lowercased token
`"cat"`. -/
theorem fill_embedding_mat_cells_witness :
    ((fill_embedding_mat [[0, 1]] [(1, "Cat")] [("cat", [(3 : Rat), 4])] 2).bind
        fun t => cell3 t 0 1) = some [3, 4] := by
  have h := (fill_embedding_mat_cells [[0, 1]] [(1, "Cat")] [("cat", [(3 : Rat), 4])] 2
    (by decide) 0 1 [0, 1] 1 (by decide) (by decide)).2.2.2.2 "Cat" (by decide) (by decide)
  have h2 : (match dlookup [("cat", [(3 : Rat), 4])] (pyLower "Cat") with
             | some v => v
             | none => List.replicate 2 0) = ([3, 4] : List Rat) := by decide
  rw [← h2]
  exact h

/-- C10: a cell of `fill_embedding_mat` whose positive id is absent from
the source lexicon is looked up under the key `"none"` — the lowercased
string form `str(None).lower()` of the missing-key sentinel — so it stays
zero unless the embedding lexicon has a key `"none"`, in which case that
vector is written into the cell. -/
theorem fill_embedding_mat_missing_id_none_key
    (src_mat : List (List Int)) (src_lex : List (Int × String))
    (emb_lex : List (String × List Rat)) (emb_size : Nat)
    (hlen : ∀ p ∈ emb_lex, (Prod.snd p).length = emb_size)
    (i j : Nat) (sen : List Int) (w : Int)
    (hi : nth src_mat i = some sen) (hj : nth sen j = some w)
    (hw : 0 < w) (hmiss : dlookup src_lex w = none) :
    ((fill_embedding_mat src_mat src_lex emb_lex emb_size).bind fun t => cell3 t i j)
      = some (match dlookup emb_lex "none" with
              | some v => v
              | none => List.replicate emb_size 0) := by
  rw [fill_cell src_mat src_lex emb_lex emb_size hlen i j sen w hi hj]
  unfold cellVal
  rw [if_pos hw, hmiss]
  have hkey : pyLower (pyStr none) = "none" := by decide
  rw [hkey]

/-- Witness for C10: with the source lexicon empty and the embedding
lexicon containing a `"none"` entry, the cell of the unresolvable id 3
receives the vector of that entry. -/
theorem fill_embedding_mat_missing_id_none_key_witness :
    ((fill_embedding_mat [[3]] [] [("none", [(7 : Rat), 8])] 2).bind
        fun t => cell3 t 0 0)
      = some (match dlookup [("none", [(7 : Rat), 8])] "none" with
              | some v => v
              | none => List.replicate 2 0) :=
  fill_embedding_mat_missing_id_none_key [[3]] [] [("none", [(7 : Rat), 8])] 2
    (by decide) 0 0 [3] 3 (by decide) (by decide) (by decide) (by decide)

/-! ### Lemmas about `load_embedding_file` -/

theorem loadFileGo_preserve :
    ∀ (lines : List String) (acc tbl : List (String × List Rat)) (k : String),
      loadEmbeddingFileGo lines acc = some tbl →
      (∀ line ∈ lines, (pyFields line).headD "" ≠ k) →
      dlookup tbl k = dlookup acc k := by
  intro lines
  induction lines with
  | nil => intro acc tbl k h _; injection h with h; rw [← h]
  | cons line rest ih =>
    intro acc tbl k h hne
    rw [loadEmbeddingFileGo] at h
    split at h
    · cases h
    · rename_i word vals hf
      split at h
      · cases h
      · rename_i vec hv
        rw [ih (dinsert acc word vec) tbl k h
          (fun l hl => hne l (List.mem_cons_of_mem line hl))]
        rw [dlookup_dinsert]
        have hkw : ¬ k = word := by
          have hh := hne line (List.mem_cons_self line rest)
          rw [hf] at hh
          simp only [List.headD_cons] at hh
          exact fun h2 => hh h2.symm
        rw [if_neg hkw]

theorem loadFileGo_lookup :
    ∀ (lines : List String) (acc tbl : List (String × List Rat)),
      loadEmbeddingFileGo lines acc = some tbl →
      (lines.map fun l => (pyFields l).headD "").Nodup →
      ∀ line ∈ lines,
        dlookup tbl ((pyFields line).headD "")
          = omap parseFloat (pyFields line).tail := by
  intro lines
  induction lines with
  | nil => intro acc tbl _ _ line hl; cases hl
  | cons line0 rest ih =>
    intro acc tbl h hnd line hl
    have hnd1 : (((pyFields line0).headD "")
        :: rest.map fun l => (pyFields l).headD "").Nodup := by
      simpa only [List.map_cons] using hnd
    have hnd2 := List.nodup_cons.mp hnd1
    rw [loadEmbeddingFileGo] at h
    split at h
    · cases h
    · rename_i word vals hf
      split at h
      · cases h
      · rename_i vec hv
        rcases List.mem_cons.mp hl with heq | hmem
        · subst heq
          have hw0 : (pyFields line).headD "" = word := by
            rw [hf]
            rfl
          rw [hw0, hf]
          rw [loadFileGo_preserve rest (dinsert acc word vec) tbl word h
            (fun l hl2 hh => hnd2.1 (by rw [hw0]; exact List.mem_map.mpr ⟨l, hl2, hh⟩))]
          rw [dlookup_dinsert, if_pos rfl]
          simpa using hv.symm
        · exact ih (dinsert acc word vec) tbl h hnd2.2 line hmem

/-- C9: `load_embedding_file` applies no token filter, no minimum-field
rule and no whitespace special case: whenever it returns a table, every
input line (the lines having pairwise distinct first fields, as the last
write wins in a dict) maps its first whitespace-delimited field to the
float conversion of its remaining fields; concretely, a 3-field line and
a 2-field line beginning with a space are both stored as ordinary
token-to-vector entries. -/
theorem load_embedding_file_every_line_kept :
    (∀ (lines : List String) (tbl : List (String × List Rat)),
        load_embedding_file lines = some tbl →
        (lines.map fun l => (pyFields l).headD "").Nodup →
        ∀ line ∈ lines,
          dlookup tbl ((pyFields line).headD "")
            = omap parseFloat (pyFields line).tail)
    ∧ load_embedding_file ["a 1.0 2.0", " b 3.0"]
        = some [("a", [1, 2]), ("b", [3])] :=
  ⟨fun lines tbl h hnd => loadFileGo_lookup lines [] tbl h hnd, by decide⟩

/-- Witness for C9: instantiating the theorem on the two-line file, the
2-field line `"a 1.0 2.0"` contributes the entry mapping `"a"` to the
parsed tail `[1, 2]`. -/
theorem load_embedding_file_every_line_kept_witness :
    dlookup [("a", ([1, 2] : List Rat)), ("b", [3])]
        ((pyFields "a 1.0 2.0").headD "")
      = omap parseFloat (pyFields "a 1.0 2.0").tail :=
  load_embedding_file_every_line_kept.1 ["a 1.0 2.0", " b 3.0"]
    [("a", [1, 2]), ("b", [3])] (by decide) (by decide) "a 1.0 2.0"
    (by decide)
